import Mathlib

/-!
Verification of `qualtran/bloqs/state_preparation.py`
(`StatePreparationAliasSampling`, coherent alias sampling).

The file shallowly embeds the Python source: the frozen attrs class becomes a
Lean structure, its cached properties become functions, and
`decompose_from_registers` becomes a function from a sampler and a register
binding map to a list of operation applications.  Collaborators that the
source imports from elsewhere in the repository (the classical preprocessing
routine `preprocess_lcu_coefficients_for_reversible_sampling`, the semantics
of the external `QROM`, `LessThanEqual` and `CSwap` primitives, and
`Signature.build`) are modelled from the specification, as marked in their
doc comments.
-/

namespace Qualtran

/-- A register: a name together with a bit width
(Python `qualtran.Register`). -/
structure Register where
  name : String
  bitsize : Nat
deriving DecidableEq, Repr

/-- A selection register: a register together with an iteration length
(Python `qualtran.SelectionRegister`). -/
structure SelectionRegister extends Register where
  iteration_length : Nat
deriving DecidableEq, Repr

/-- `total_bits` from `qualtran._infra.gate_with_registers`: the sum of the
bit widths of a list of registers (all registers here have empty shape). -/
def total_bits (regs : List Register) : Nat :=
  (regs.map (fun r => r.bitsize)).sum

/-- Fuel-driven core of `bitLength`: the number of binary digits of `m`,
computed structurally (any `fuel > m` gives the exact value). -/
def bitLengthAux : Nat → Nat → Nat
  | 0, _ => 0
  | fuel + 1, m => if m = 0 then 0 else bitLengthAux fuel (m / 2) + 1

/-- Python's `int.bit_length()`: the number of binary digits of `n`
(`bitLength 0 = 0`). -/
def bitLength (n : Nat) : Nat := bitLengthAux (n + 1) n

/-- The frozen attrs class `StatePreparationAliasSampling`: a tuple of
selection registers, the `alt` and `keep` integer arrays, and the fixed-point
precision `mu`. -/
structure StatePreparationAliasSampling where
  selection_registers : List SelectionRegister
  alt : List Nat
  keep : List Nat
  mu : Nat
deriving DecidableEq, Repr

namespace StatePreparationAliasSampling

/-- `sigma_mu_bitsize` cached property: `self.mu`. -/
def sigma_mu_bitsize (s : StatePreparationAliasSampling) : Nat := s.mu

/-- `alternates_bitsize` cached property:
`total_bits(self.selection_registers)`. -/
def alternates_bitsize (s : StatePreparationAliasSampling) : Nat :=
  total_bits (s.selection_registers.map (fun r => r.toRegister))

/-- `keep_bitsize` cached property: `self.mu`. -/
def keep_bitsize (s : StatePreparationAliasSampling) : Nat := s.mu

/-- `selection_bitsize` cached property:
`total_bits(self.selection_registers)`. -/
def selection_bitsize (s : StatePreparationAliasSampling) : Nat :=
  total_bits (s.selection_registers.map (fun r => r.toRegister))

/-- `self.selection_registers[0].iteration_length`, the `N` used by the
decomposition (out-of-range access modelled with a default, the factory
always installs exactly one selection register). -/
def iterationLength (s : StatePreparationAliasSampling) : Nat :=
  (s.selection_registers.getD 0 ⟨⟨"", 0⟩, 0⟩).iteration_length

/-- `junk_registers` cached property.  `Signature.build` itself is not part
of the excerpted source; modelled from the spec, which lists exactly the four
named descriptors `sigma_mu`, `alt`, `keep` and the 1-bit comparison flag
(named `less_than_equal` in the source). -/
def junk_registers (s : StatePreparationAliasSampling) : List Register :=
  [⟨"sigma_mu", s.sigma_mu_bitsize⟩,
   ⟨"alt", s.alternates_bitsize⟩,
   ⟨"keep", s.keep_bitsize⟩,
   ⟨"less_than_equal", 1⟩]

/-- `_value_equality_values_`: the tuple
`(selection_registers, tuple(alt), tuple(keep), mu)` that `cirq.value_equality`
uses for `__eq__` and `__hash__`. -/
def valueEqualityValues (s : StatePreparationAliasSampling) :
    List SelectionRegister × List Nat × List Nat × Nat :=
  (s.selection_registers, s.alt, s.keep, s.mu)

end StatePreparationAliasSampling

/-- Error taxonomy of the spec (`InvalidDistribution`, `PrecisionError`,
`SizeMismatch`) together with the dynamic key-lookup failure of the Python
dictionary access in `decompose_from_registers`. -/
inductive Err where
  | invalidDistribution
  | precisionError
  | sizeMismatch
  | keyError
deriving DecidableEq, Repr

/-- One operation application yielded by `decompose_from_registers`.
Qubits are identifiers (`Nat`); each constructor records the gate parameters
and the concrete qubit lists it is applied to, exactly as the source builds
them. -/
inductive Op where
  | prepareUniformSuperposition (N : Nat) (target : List Nat)
  | hadamardEach (target : List Nat)
  | qrom (table0 table1 : List Nat) (addrWidth targetWidth0 targetWidth1 : Nat)
      (selection target0 target1 : List Nat)
  | lessThanEqual (widthA widthB : Nat) (a b target : List Nat)
  | cswap (ctrl x y : List Nat)
deriving DecidableEq, Repr

/-- The caller-supplied register bindings (`**quregs`): an association list
from register names to concrete qubit lists. -/
def Bindings : Type := List (String × List Nat)

/-- Dictionary lookup on bindings (`quregs[name]` / `quregs.get(name)`). -/
def lookupBinding (q : Bindings) (name : String) : Option (List Nat) :=
  (List.find? (fun p => p.1 == name) q).map (fun p => p.2)

/-- `decompose_from_registers`.  The source reads `selection`,
`less_than_equal` and `alt` with mandatory dictionary access (a missing key
is a lookup error), reads `sigma_mu` and `keep` with `.get(..., ())`
defaulting to the empty tuple, and then yields the five operation
applications in order, performing no width validation whatsoever. -/
def decompose_from_registers (s : StatePreparationAliasSampling)
    (quregs : Bindings) : Except Err (List Op) :=
  match lookupBinding quregs "selection", lookupBinding quregs "less_than_equal",
      lookupBinding quregs "alt" with
  | some selection, some less_than_equal, some alt =>
    let sigma_mu := (lookupBinding quregs "sigma_mu").getD []
    let keep := (lookupBinding quregs "keep").getD []
    let N := s.iterationLength
    Except.ok
      [Op.prepareUniformSuperposition N selection,
       Op.hadamardEach sigma_mu,
       Op.qrom s.alt s.keep s.selection_bitsize s.alternates_bitsize
         s.keep_bitsize selection alt keep,
       Op.lessThanEqual s.mu s.mu keep sigma_mu less_than_equal,
       Op.cswap less_than_equal alt selection]
  | _, _, _ => Except.error Err.keyError

/-- Modelled from the spec: helper of the alias-table builder.  Selects from
a list of `(index, weight)` buckets the one whose weight is preferred by
`better` (first among ties), returning it with the remaining buckets. -/
def pickBy (better : Nat → Nat → Bool) : List (Nat × Nat) →
    Option ((Nat × Nat) × List (Nat × Nat))
  | [] => none
  | p :: rest =>
    match pickBy better rest with
    | none => some (p, [])
    | some (q, rest2) =>
      if better p.2 q.2 then some (p, rest) else some (q, p :: rest2)

/-- Modelled from the spec: the Vose-style two-pile fixed-point alias
partition.  `M = 2^mu` is the capacity of a bucket in fixed-point units.
Repeatedly pair the currently lightest under-filled bucket with the
currently heaviest over-filled bucket, transferring exactly the deficit,
until all buckets are filled to exactly `M` units.  `fuel` bounds the number
of pairings (each pairing finalizes one bucket, so the initial list length
suffices); the fall-back branches never run on conserving inputs. -/
def voseAux (M : Nat) : Nat → List (Nat × Nat) → List (Nat × Nat × Nat)
  | 0, buckets => buckets.map (fun b => (b.1, min b.2 M, b.1))
  | fuel + 1, buckets =>
    match pickBy (fun a b => a ≤ b) buckets with
    | none => []
    | some (j, rest) =>
      if M ≤ j.2 then buckets.map (fun b => (b.1, M, b.1))
      else
        match pickBy (fun a b => b ≤ a) rest with
        | none => [(j.1, min j.2 M, j.1)]
        | some (g, rest2) =>
          (j.1, j.2, g.1) :: voseAux M fuel ((g.1, g.2 - (M - j.2)) :: rest2)

/-- Modelled from the spec: distribute `r` leftover fixed-point units one per
bucket, deterministically to the first `r` buckets. -/
def addRemainder : Nat → List Nat → List Nat
  | _, [] => []
  | 0, ws => ws
  | r + 1, w :: ws => (w + 1) :: addRemainder r ws

/-- Modelled from the spec: initial fixed-point weights.  Each probability is
scaled to `L * M` units and floored; the rounding deficit is distributed
deterministically so that the weights sum to exactly `L * M`. -/
def fixedPointWeights (probs : List ℚ) (M : Nat) : List Nat :=
  let base := probs.map (fun p =>
    (p * (probs.length : ℚ) * (M : ℚ)).floor.toNat)
  addRemainder (probs.length * M - base.sum) base

/-- Modelled from the spec: turn the list of `(index, keep, alt)` assignments
produced by the partition into positional `alt` and `keep` arrays of
length `L` (an index never assigned keeps all `M` of its own units). -/
def tableFromAssignments (M L : Nat) (out : List (Nat × Nat × Nat)) :
    List Nat × List Nat :=
  ((List.range L).map (fun l =>
      match List.find? (fun t => t.1 == l) out with
      | some t => t.2.2
      | none => l),
   (List.range L).map (fun l =>
      match List.find? (fun t => t.1 == l) out with
      | some t => t.2.1
      | none => M))

/-- Modelled from the spec: the complete alias-table construction at a given
precision `mu`: fixed-point weights, then the Vose-style partition. -/
def buildAliasTable (probs : List ℚ) (mu : Nat) : List Nat × List Nat × Nat :=
  let L := probs.length
  let M := 2 ^ mu
  let out := voseAux M L ((List.range L).zip (fixedPointWeights probs M))
  let t := tableFromAssignments M L out
  (t.1, t.2, mu)

/-- Modelled from the spec: the smallest bit precision `mu ≥ 1` for which the
per-outcome rounding error `2 / (L * 2^mu)` of the fixed-point weights is at
most `epsilon`; any precision beyond the sane upper bound is reported as
infeasible. -/
def muOf (L : Nat) (eps : ℚ) : Nat :=
  match (List.range 64).find?
      (fun k => decide ((2 : ℚ) ≤ (L : ℚ) * eps * 2 ^ (k + 1))) with
  | some k => k + 1
  | none => 65

/-- Modelled from the spec: tolerance on the deviation of the input
probability sum from 1. -/
def sumTolerance : ℚ := 1 / 1000

/-- Modelled from the spec: input validation of the alias-table builder —
non-empty, non-negative entries, sum within tolerance of 1. -/
def validDistribution (probs : List ℚ) : Bool :=
  (!probs.isEmpty) && probs.all (fun p => decide (0 ≤ p)) &&
    decide (|probs.sum - 1| ≤ sumTolerance)

/-- Modelled from the spec: upper bound on a sane fixed-point precision. -/
def muUpperBound : Nat := 64

/-- Modelled from the spec:
`qualtran.linalg.lcu_util.preprocess_lcu_coefficients_for_reversible_sampling`
is imported by the source but lies outside the excerpted core.  Validates the
distribution and the precision, then builds the `(alt, keep, mu)` table. -/
def preprocess_lcu_coefficients_for_reversible_sampling (probs : List ℚ)
    (eps : ℚ) : Except Err (List Nat × List Nat × Nat) :=
  if !validDistribution probs then Except.error Err.invalidDistribution
  else if eps ≤ 0 then Except.error Err.precisionError
  else
    let mu := muOf probs.length eps
    if muUpperBound < mu then Except.error Err.precisionError
    else Except.ok (buildAliasTable probs mu)

/-- `from_lcu_probs` classmethod: run the preprocessing, then freeze the
sampler with a single selection register of width `(N - 1).bit_length()`
(Lean: `Nat.size`) and iteration length `N`. -/
def from_lcu_probs (lcu_probabilities : List ℚ) (probability_epsilon : ℚ) :
    Except Err StatePreparationAliasSampling :=
  (preprocess_lcu_coefficients_for_reversible_sampling lcu_probabilities
      probability_epsilon).map (fun t =>
    { selection_registers :=
        [⟨⟨"selection", bitLength (lcu_probabilities.length - 1)⟩,
          lcu_probabilities.length⟩],
      alt := t.1,
      keep := t.2.1,
      mu := t.2.2 })

/-- Modelled from the spec: `cirq.value_equality` derives `__hash__` from
`_value_equality_values_`; modelled as a fixed pure function of that value
tuple. -/
def hashOfValues (v : List SelectionRegister × List Nat × List Nat × Nat) :
    Nat :=
  v.2.1.sum + 31 * v.2.2.1.sum + 961 * v.2.2.2 +
    29791 * total_bits (v.1.map (fun r => r.toRegister))

/-- The hash of a sampler: the hash of its value-equality tuple. -/
def samplerHash (s : StatePreparationAliasSampling) : Nat :=
  hashOfValues s.valueEqualityValues

/-- The AliasTable invariants stated in the spec's data model: `alt` and
`keep` have length `L`, `alt` entries lie in `[0, L)` and `keep` entries in
`[0, 2^mu)`. -/
def aliasTableInvariants (s : StatePreparationAliasSampling) : Prop :=
  s.alt.length = s.iterationLength ∧ s.keep.length = s.iterationLength ∧
    (∀ a ∈ s.alt, a < s.iterationLength) ∧ (∀ k ∈ s.keep, k < 2 ^ s.mu)

instance (s : StatePreparationAliasSampling) :
    Decidable (aliasTableInvariants s) := by
  unfold aliasTableInvariants; infer_instance

/-- Classical register contents during one run of the five-step sequence:
the value held by each of the five bound registers. -/
structure RegState where
  selection : Nat
  sigma : Nat
  altv : Nat
  keepv : Nat
  flag : Nat
deriving DecidableEq, Repr

/-- Modelled from the spec: the external `QROM` table lookup writes
`table0[selection]` and `table1[selection]` into the two target registers
(starting from the fixed baseline). -/
def qromSem (table0 table1 : List Nat) (st : RegState) : RegState :=
  { st with altv := table0.getD st.selection 0,
            keepv := table1.getD st.selection 0 }

/-- Modelled from the spec: the external `LessThanEqual` comparator XORs the
boolean `keep ≤ sigma_mu` into the 1-bit flag, leaving its inputs
unchanged. -/
def lessThanEqualSem (st : RegState) : RegState :=
  { st with flag := st.flag ^^^ (if st.keepv ≤ st.sigma then 1 else 0) }

/-- Modelled from the spec: the external `CSwap` exchanges the `alt` and
selection registers exactly when the flag is 1, leaving the flag
unchanged. -/
def cswapSem (st : RegState) : RegState :=
  if st.flag = 1 then { st with selection := st.altv, altv := st.selection }
  else st

/-- The fixed-point mass assigned by an alias table: the units each outcome
`l` retains (`keep[l]`) plus the units donated to it by every donor `j` with
`alt[j] = l` (each donating `M - keep[j]`). -/
def encodedMass (M : Nat) (alt keep : List Nat) : Nat :=
  (∑ l in Finset.range alt.length, keep.getD l 0) +
    ∑ l in Finset.range alt.length,
      ∑ j in (Finset.range alt.length).filter (fun j => alt.getD j 0 = l),
        (M - keep.getD j 0)

deriving instance DecidableEq for Except

/-- Example input `[0.5, 0.5]` of the spec's end-to-end example 1. -/
def probsHalf : List ℚ := [1/2, 1/2]

/-- The sampler the factory builds from `probsHalf` at `epsilon = 1`. -/
def sHalf : StatePreparationAliasSampling :=
  ⟨[⟨⟨"selection", 1⟩, 2⟩], [0, 1], [2, 2], 1⟩

/-- `[0.25, 0.75]`: `probsHalf` with its first entry changed well beyond the
rounding slack at `epsilon = 1`. -/
def probsQuarter : List ℚ := [1/4, 3/4]

/-- A uniform distribution over 5 outcomes. -/
def probs5 : List ℚ := [1/5, 1/5, 1/5, 1/5, 1/5]

/-- The sampler the factory builds from `probs5` at `epsilon = 1`. -/
def s5 : StatePreparationAliasSampling :=
  ⟨[⟨⟨"selection", 3⟩, 5⟩], [0, 1, 2, 3, 4], [2, 2, 2, 2, 2], 1⟩

/-- A uniform distribution over 8 outcomes. -/
def probs8 : List ℚ := [1/8, 1/8, 1/8, 1/8, 1/8, 1/8, 1/8, 1/8]

/-- The sampler the factory builds from `probs8` at `epsilon = 1`. -/
def s8 : StatePreparationAliasSampling :=
  ⟨[⟨⟨"selection", 3⟩, 8⟩], [0, 1, 2, 3, 4, 5, 6, 7],
    [2, 2, 2, 2, 2, 2, 2, 2], 1⟩

/-- A uniform distribution over 9 outcomes. -/
def probs9 : List ℚ :=
  [1/9, 1/9, 1/9, 1/9, 1/9, 1/9, 1/9, 1/9, 1/9]

/-- The sampler the factory builds from `probs9` at `epsilon = 1`. -/
def s9 : StatePreparationAliasSampling :=
  ⟨[⟨⟨"selection", 4⟩, 9⟩], [0, 1, 2, 3, 4, 5, 6, 7, 8],
    [2, 2, 2, 2, 2, 2, 2, 2, 2], 1⟩

/-- Register bindings whose qubit lists match `sHalf`'s declared widths. -/
def bindingsOk : Bindings :=
  [("selection", [0]), ("sigma_mu", [1]), ("alt", [2]), ("keep", [3]),
   ("less_than_equal", [4])]

/-- Register bindings binding 5 qubits to the 1-bit selection register of
`sHalf`: a width mismatch against the declared widths. -/
def bindingsBad : Bindings :=
  [("selection", [0, 1, 2, 3, 4]), ("sigma_mu", [5]), ("alt", [6]),
   ("keep", [7]), ("less_than_equal", [8])]

/-- A sampler built directly through the raw constructor with an `alt` array
of the wrong length holding an out-of-range index, and a `keep` entry
exceeding `2^mu`; the constructor performs no validation. -/
def badSampler : StatePreparationAliasSampling :=
  ⟨[⟨⟨"selection", 2⟩, 3⟩], [5, 0], [99], 2⟩

/-! ### Invariants of the alias-table construction -/

theorem pickBy_mem (better : Nat → Nat → Bool) :
    ∀ (l : List (Nat × Nat)) (p : Nat × Nat) (rest : List (Nat × Nat)),
      pickBy better l = some (p, rest) →
        p ∈ l ∧ ∀ q ∈ rest, q ∈ l := by
  intro l
  induction l with
  | nil => intro p rest h; simp [pickBy] at h
  | cons a t ih =>
    intro p rest h
    cases hpt : pickBy better t with
    | none =>
      simp [pickBy, hpt] at h
      obtain ⟨hp, hr⟩ := h
      subst hp; subst hr
      exact ⟨List.mem_cons_self _ _, by intro q hq; simp at hq⟩
    | some qr =>
      obtain ⟨q0, r0⟩ := qr
      obtain ⟨hq0, hr0⟩ := ih q0 r0 hpt
      by_cases hb : better a.2 q0.2
      · simp [pickBy, hpt, hb] at h
        obtain ⟨hp, hr⟩ := h
        subst hp; subst hr
        exact ⟨List.mem_cons_self _ _, fun q hq => List.mem_cons_of_mem _ hq⟩
      · simp [pickBy, hpt, hb] at h
        obtain ⟨hp, hr⟩ := h
        subst hp; subst hr
        refine ⟨List.mem_cons_of_mem _ hq0, ?_⟩
        intro q hq
        rcases List.mem_cons.1 hq with h1 | h1
        · subst h1; exact List.mem_cons_self _ _
        · exact List.mem_cons_of_mem _ (hr0 q h1)

theorem voseAux_bound (M L : Nat) :
    ∀ (fuel : Nat) (buckets : List (Nat × Nat)),
      (∀ b ∈ buckets, b.1 < L) →
      ∀ t ∈ voseAux M fuel buckets, t.1 < L ∧ t.2.1 ≤ M ∧ t.2.2 < L := by
  intro fuel
  induction fuel with
  | zero =>
    intro buckets hb t ht
    simp only [voseAux, List.mem_map] at ht
    obtain ⟨b, hbmem, hbt⟩ := ht
    subst hbt
    exact ⟨hb b hbmem, Nat.min_le_right _ _, hb b hbmem⟩
  | succ fuel ih =>
    intro buckets hb t ht
    cases hpick : pickBy (fun a b => a ≤ b) buckets with
    | none => simp [voseAux, hpick] at ht
    | some jr =>
      obtain ⟨j, rest⟩ := jr
      obtain ⟨hj, hrest⟩ := pickBy_mem _ buckets j rest hpick
      by_cases hfull : M ≤ j.2
      · simp only [voseAux, hpick, hfull, if_true, List.mem_map] at ht
        obtain ⟨b, hbmem, hbt⟩ := ht
        subst hbt
        exact ⟨hb b hbmem, le_refl _, hb b hbmem⟩
      · cases hpick2 : pickBy (fun a b => b ≤ a) rest with
        | none =>
          simp only [voseAux, hpick, hfull, if_false, hpick2,
            List.mem_singleton] at ht
          subst ht
          exact ⟨hb j hj, Nat.min_le_right _ _, hb j hj⟩
        | some gr =>
          obtain ⟨g, rest2⟩ := gr
          obtain ⟨hg, hrest2⟩ := pickBy_mem _ rest g rest2 hpick2
          simp only [voseAux, hpick, hfull, if_false, hpick2] at ht
          rcases List.mem_cons.1 ht with h1 | h1
          · subst h1
            exact ⟨hb j hj, Nat.le_of_lt (Nat.lt_of_not_le hfull),
              hb g (hrest g hg)⟩
          · refine ih ((g.1, g.2 - (M - j.2)) :: rest2) ?_ t h1
            intro b hbmem
            rcases List.mem_cons.1 hbmem with h2 | h2
            · subst h2; exact hb g (hrest g hg)
            · exact hb _ (hrest _ (hrest2 _ h2))

theorem tableFromAssignments_fst_length (M L : Nat)
    (out : List (Nat × Nat × Nat)) :
    (tableFromAssignments M L out).1.length = L := by
  simp [tableFromAssignments]

theorem tableFromAssignments_snd_length (M L : Nat)
    (out : List (Nat × Nat × Nat)) :
    (tableFromAssignments M L out).2.length = L := by
  simp [tableFromAssignments]

theorem tableFromAssignments_fst_lt (M L : Nat)
    (out : List (Nat × Nat × Nat))
    (hout : ∀ t ∈ out, t.2.2 < L) :
    ∀ x ∈ (tableFromAssignments M L out).1, x < L := by
  intro x hx
  simp only [tableFromAssignments, List.mem_map] at hx
  obtain ⟨l, hl, hlx⟩ := hx
  rw [List.mem_range] at hl
  cases hfind : List.find? (fun t => t.1 == l) out with
  | none => rw [hfind] at hlx; simpa [← hlx] using hl
  | some t =>
    rw [hfind] at hlx
    rw [← hlx]
    exact hout t (List.mem_of_find?_eq_some hfind)

theorem tableFromAssignments_snd_le (M L : Nat)
    (out : List (Nat × Nat × Nat))
    (hout : ∀ t ∈ out, t.2.1 ≤ M) :
    ∀ x ∈ (tableFromAssignments M L out).2, x ≤ M := by
  intro x hx
  simp only [tableFromAssignments, List.mem_map] at hx
  obtain ⟨l, hl, hlx⟩ := hx
  cases hfind : List.find? (fun t => t.1 == l) out with
  | none => rw [hfind] at hlx; simp [← hlx]
  | some t =>
    rw [hfind] at hlx
    rw [← hlx]
    exact hout t (List.mem_of_find?_eq_some hfind)

theorem getD_mem_of_lt {l : List Nat} {n : Nat} (d : Nat)
    (h : n < l.length) : l.getD n d ∈ l := by
  induction l generalizing n with
  | nil => simp at h
  | cons a t ih =>
    cases n with
    | zero => simp [List.getD]
    | succ m =>
      simp only [List.getD_cons_succ]
      exact List.mem_cons_of_mem _ (ih (Nat.lt_of_succ_lt_succ h))

theorem encodedMass_eq (M : Nat) (alt keep : List Nat)
    (hlen : keep.length = alt.length)
    (ha : ∀ x ∈ alt, x < alt.length)
    (hk : ∀ x ∈ keep, x ≤ M) :
    encodedMass M alt keep = alt.length * M := by
  unfold encodedMass
  have hgetk : ∀ j ∈ Finset.range alt.length, keep.getD j 0 ≤ M := by
    intro j hj
    rw [Finset.mem_range] at hj
    exact hk _ (getD_mem_of_lt 0 (by rw [hlen]; exact hj))
  have hmaps : ∀ j ∈ Finset.range alt.length,
      alt.getD j 0 ∈ Finset.range alt.length := by
    intro j hj
    rw [Finset.mem_range] at hj ⊢
    exact ha _ (getD_mem_of_lt 0 hj)
  rw [Finset.sum_fiberwise_of_maps_to hmaps (fun j => M - keep.getD j 0)]
  rw [← Finset.sum_add_distrib]
  have hsum : ∀ j ∈ Finset.range alt.length,
      keep.getD j 0 + (M - keep.getD j 0) = M := by
    intro j hj
    exact Nat.add_sub_cancel' (hgetk j hj)
  rw [Finset.sum_congr rfl hsum]
  simp [Finset.sum_const, Finset.card_range, Nat.mul_comm]

theorem buildAliasTable_conserves (probs : List ℚ) (mu : Nat) :
    encodedMass (2 ^ mu) (buildAliasTable probs mu).1
      (buildAliasTable probs mu).2.1 = probs.length * 2 ^ mu := by
  set L := probs.length with hL
  set M := 2 ^ mu with hM
  set out := voseAux M L ((List.range L).zip (fixedPointWeights probs M))
    with hout
  have hidx : ∀ b ∈ (List.range L).zip (fixedPointWeights probs M),
      b.1 < L := by
    intro b hb
    have := (List.of_mem_zip hb).1
    exact List.mem_range.1 this
  have hbound := voseAux_bound M L L _ hidx
  have halt : ∀ x ∈ (tableFromAssignments M L out).1, x < L :=
    tableFromAssignments_fst_lt M L out (fun t ht => (hbound t ht).2.2)
  have hkeep : ∀ x ∈ (tableFromAssignments M L out).2, x ≤ M :=
    tableFromAssignments_snd_le M L out (fun t ht => (hbound t ht).2.1)
  have h1 : (buildAliasTable probs mu).1 = (tableFromAssignments M L out).1 :=
    rfl
  have h2 : (buildAliasTable probs mu).2.1 =
      (tableFromAssignments M L out).2 := rfl
  rw [h1, h2]
  have hlen1 := tableFromAssignments_fst_length M L out
  have hlen2 := tableFromAssignments_snd_length M L out
  rw [encodedMass_eq M _ _ (by rw [hlen1, hlen2])
    (by rw [hlen1]; exact halt) hkeep, hlen1]

/-! ### Bit-length arithmetic -/

theorem bitLengthAux_le_iff :
    ∀ (fuel m : Nat), m < fuel → ∀ k, (bitLengthAux fuel m ≤ k ↔ m < 2 ^ k) := by
  intro fuel
  induction fuel with
  | zero => intro m hm; omega
  | succ fuel ih =>
    intro m hm k
    by_cases hm0 : m = 0
    · subst hm0
      simp [bitLengthAux, Nat.pos_pow_of_pos, Nat.pos_pow_of_pos k two_pos]
    · simp only [bitLengthAux, hm0, if_false]
      cases k with
      | zero =>
        simp only [Nat.pow_zero]
        omega
      | succ k2 =>
        have hdiv : m / 2 < fuel := by omega
        have hiff := ih (m / 2) hdiv k2
        constructor
        · intro hle
          have h1 : m / 2 < 2 ^ k2 := hiff.1 (by omega)
          have h2 : m < 2 ^ k2 * 2 := Nat.lt_mul_of_div_lt h1 two_pos
          calc m < 2 ^ k2 * 2 := h2
            _ = 2 ^ (k2 + 1) := by rw [Nat.pow_succ]
        · intro hlt
          have h1 : m / 2 < 2 ^ k2 := by
            apply Nat.div_lt_of_lt_mul
            calc m < 2 ^ (k2 + 1) := hlt
              _ = 2 * 2 ^ k2 := by rw [Nat.pow_succ, Nat.mul_comm]
          have h3 := hiff.2 h1
          omega

theorem bitLength_le_iff (m k : Nat) : bitLength m ≤ k ↔ m < 2 ^ k :=
  bitLengthAux_le_iff (m + 1) m (Nat.lt_succ_self m) k

/-- The selection width `(L - 1).bit_length()` used by the factory equals
`ceil(log2 L)` for every `L ≥ 1`. -/
theorem bitLength_pred_eq_clog (L : Nat) (hL : 1 ≤ L) :
    bitLength (L - 1) = Nat.clog 2 L := by
  apply le_antisymm
  · rw [bitLength_le_iff]
    have h1 : L ≤ 2 ^ Nat.clog 2 L :=
      (Nat.le_pow_iff_clog_le one_lt_two).2 (le_refl _)
    omega
  · refine (Nat.le_pow_iff_clog_le one_lt_two).1 ?_
    have h2 : L - 1 < 2 ^ bitLength (L - 1) :=
      (bitLength_le_iff (L - 1) _).1 (le_refl _)
    omega

/-! ### Shape of factory-built samplers -/

theorem from_lcu_probs_registers (probs : List ℚ) (eps : ℚ)
    (s : StatePreparationAliasSampling)
    (h : from_lcu_probs probs eps = Except.ok s) :
    s.selection_registers =
      [⟨⟨"selection", bitLength (probs.length - 1)⟩, probs.length⟩] := by
  unfold from_lcu_probs at h
  cases hp : preprocess_lcu_coefficients_for_reversible_sampling probs eps with
  | error e => rw [hp] at h; simp [Except.map] at h
  | ok t =>
    rw [hp] at h
    simp only [Except.map, Except.ok.injEq] at h
    rw [← h]

theorem from_lcu_probs_selection_bitsize (probs : List ℚ) (eps : ℚ)
    (s : StatePreparationAliasSampling)
    (h : from_lcu_probs probs eps = Except.ok s) :
    s.selection_bitsize = bitLength (probs.length - 1) := by
  unfold StatePreparationAliasSampling.selection_bitsize
  rw [from_lcu_probs_registers probs eps s h]
  simp [total_bits]

theorem from_lcu_probs_alternates_bitsize (probs : List ℚ) (eps : ℚ)
    (s : StatePreparationAliasSampling)
    (h : from_lcu_probs probs eps = Except.ok s) :
    s.alternates_bitsize = bitLength (probs.length - 1) := by
  unfold StatePreparationAliasSampling.alternates_bitsize
  rw [from_lcu_probs_registers probs eps s h]
  simp [total_bits]

/-! ### The claims -/

section ClaimProofs

attribute [local semireducible] Rat.add Rat.sub Rat.mul Rat.inv

/-- Claim C2: for every valid probability vector and every positive epsilon,
the table `(alt, keep, mu)` produced by the preprocessing conserves
probability mass exactly: the sum over all outcomes `l` of `keep[l]` plus the
units `2^mu - keep[j]` donated by every `j` with `alt[j] = l` equals exactly
`L * 2^mu`. -/
theorem claim_C2_mass_conservation (probs : List ℚ) (eps : ℚ)
    (alt keep : List Nat) (mu : Nat)
    (hv : validDistribution probs = true) (he : 0 < eps)
    (h : preprocess_lcu_coefficients_for_reversible_sampling probs eps =
      Except.ok (alt, keep, mu)) :
    encodedMass (2 ^ mu) alt keep = probs.length * 2 ^ mu := by
  unfold preprocess_lcu_coefficients_for_reversible_sampling at h
  have hne : ¬ eps ≤ 0 := not_le.2 he
  simp only [hv, Bool.not_true, Bool.false_eq_true, if_false, hne,
    if_true] at h
  split at h
  · simp at h
  · simp only [Except.ok.injEq] at h
    have ha : (buildAliasTable probs (muOf probs.length eps)).1 = alt := by
      rw [h]
    have hk : (buildAliasTable probs (muOf probs.length eps)).2.1 = keep := by
      rw [h]
    have hm : (buildAliasTable probs (muOf probs.length eps)).2.2 = mu := by
      rw [h]
    rw [← ha, ← hk, ← hm]
    exact buildAliasTable_conserves probs (muOf probs.length eps)

/-- Witness for C2 at `probabilities = [1/2, 1/2]`, `epsilon = 1`. -/
theorem claim_C2_witness :
    validDistribution probsHalf = true ∧ (0 : ℚ) < 1 ∧
    encodedMass (2 ^ 1) [0, 1] [2, 2] = probsHalf.length * 2 ^ 1 :=
  ⟨by decide, by decide,
    claim_C2_mass_conservation probsHalf 1 [0, 1] [2, 2] 1 (by decide)
      (by decide) (by decide)⟩

/-- Claim C3: whenever the decomposition succeeds it yields exactly 5
ordered operation applications, independent of `L` and `mu`. -/
theorem claim_C3_five_steps (s : StatePreparationAliasSampling)
    (q : Bindings) (ops : List Op)
    (h : decompose_from_registers s q = Except.ok ops) : ops.length = 5 := by
  unfold decompose_from_registers at h
  split at h
  · simp only [Except.ok.injEq] at h
    subst h
    rfl
  · simp at h

/-- Witness for C3: the decomposition of `sHalf` under `bindingsOk`. -/
theorem claim_C3_witness :
    ([Op.prepareUniformSuperposition 2 [0], Op.hadamardEach [1],
      Op.qrom [0, 1] [2, 2] 1 1 1 [0] [2] [3],
      Op.lessThanEqual 1 1 [3] [1] [4],
      Op.cswap [4] [2] [0]] : List Op).length = 5 :=
  claim_C3_five_steps sHalf bindingsOk _ (by rfl)

/-- Claim C4: for every probability vector of length `L ≥ 1` accepted by the
factory, the resulting sampler's `selection_bitsize` equals
`ceil(log2 L)` (`Nat.clog 2 L`). -/
theorem claim_C4_selection_width (probs : List ℚ) (eps : ℚ)
    (s : StatePreparationAliasSampling) (hL : 1 ≤ probs.length)
    (h : from_lcu_probs probs eps = Except.ok s) :
    s.selection_bitsize = Nat.clog 2 probs.length := by
  rw [from_lcu_probs_selection_bitsize probs eps s h]
  exact bitLength_pred_eq_clog probs.length hL

/-- Witness for C4 at `L = 5`, `L = 8` and `L = 9`: widths 3, 3 and 4. -/
theorem claim_C4_witness :
    s5.selection_bitsize = 3 ∧ s8.selection_bitsize = 3 ∧
    s9.selection_bitsize = 4 :=
  ⟨(claim_C4_selection_width probs5 1 s5 (by decide) (by rfl)).trans
      ((bitLength_pred_eq_clog 5 (by decide)).symm.trans (by decide)),
   (claim_C4_selection_width probs8 1 s8 (by decide) (by rfl)).trans
      ((bitLength_pred_eq_clog 8 (by decide)).symm.trans (by decide)),
   (claim_C4_selection_width probs9 1 s9 (by decide) (by rfl)).trans
      ((bitLength_pred_eq_clog 9 (by decide)).symm.trans (by decide))⟩

/-- Claim C1: under a complete set of register bindings the decomposition
yields the fixed ordered sequence — UniformSuperposition over `L` on the
selection register, a Hadamard on each bit of `sigma_mu`, the table lookup
writing `alt[selection]` and `keep[selection]` into the `alt` and `keep`
registers, the comparator XOR-ing `keep ≤ sigma_mu` into the 1-bit flag
while leaving `keep` and `sigma_mu` unchanged, and the conditional exchange
swapping `alt` with selection exactly when the flag is 1 while leaving the
flag unchanged. -/
theorem claim_C1_fixed_sequence (s : StatePreparationAliasSampling)
    (q : Bindings) (sel sm al kp fl : List Nat)
    (hsel : lookupBinding q "selection" = some sel)
    (hsig : lookupBinding q "sigma_mu" = some sm)
    (hal : lookupBinding q "alt" = some al)
    (hkp : lookupBinding q "keep" = some kp)
    (hfl : lookupBinding q "less_than_equal" = some fl)
    (hw1 : sel.length = s.selection_bitsize)
    (hw2 : sm.length = s.sigma_mu_bitsize)
    (hw3 : al.length = s.alternates_bitsize)
    (hw4 : kp.length = s.keep_bitsize)
    (hw5 : fl.length = 1) :
    decompose_from_registers s q = Except.ok
      [Op.prepareUniformSuperposition s.iterationLength sel,
       Op.hadamardEach sm,
       Op.qrom s.alt s.keep s.selection_bitsize s.alternates_bitsize
         s.keep_bitsize sel al kp,
       Op.lessThanEqual s.mu s.mu kp sm fl,
       Op.cswap fl al sel] ∧
    (∀ st : RegState,
      (qromSem s.alt s.keep st).altv = s.alt.getD st.selection 0 ∧
      (qromSem s.alt s.keep st).keepv = s.keep.getD st.selection 0 ∧
      (qromSem s.alt s.keep st).selection = st.selection ∧
      (qromSem s.alt s.keep st).sigma = st.sigma ∧
      (qromSem s.alt s.keep st).flag = st.flag) ∧
    (∀ st : RegState,
      (lessThanEqualSem st).flag =
        st.flag ^^^ (if st.keepv ≤ st.sigma then 1 else 0) ∧
      (lessThanEqualSem st).keepv = st.keepv ∧
      (lessThanEqualSem st).sigma = st.sigma ∧
      (lessThanEqualSem st).selection = st.selection ∧
      (lessThanEqualSem st).altv = st.altv) ∧
    (∀ st : RegState,
      (cswapSem st).flag = st.flag ∧
      (st.flag = 1 → (cswapSem st).selection = st.altv ∧
        (cswapSem st).altv = st.selection ∧
        (cswapSem st).sigma = st.sigma ∧ (cswapSem st).keepv = st.keepv) ∧
      (st.flag ≠ 1 → cswapSem st = st)) := by
  refine ⟨?_, ?_, ?_, ?_⟩
  · simp [decompose_from_registers, hsel, hsig, hal, hkp, hfl]
  · intro st
    simp [qromSem]
  · intro st
    simp [lessThanEqualSem]
  · intro st
    by_cases hf : st.flag = 1
    · simp [cswapSem, hf]
    · simp [cswapSem, hf]

/-- Witness for C1: `sHalf` decomposed under the complete bindings
`bindingsOk`. -/
theorem claim_C1_witness :
    lookupBinding bindingsOk "selection" = some [0] ∧
    decompose_from_registers sHalf bindingsOk = Except.ok
      [Op.prepareUniformSuperposition 2 [0], Op.hadamardEach [1],
       Op.qrom [0, 1] [2, 2] 1 1 1 [0] [2] [3],
       Op.lessThanEqual 1 1 [3] [1] [4],
       Op.cswap [4] [2] [0]] :=
  ⟨by rfl,
    (claim_C1_fixed_sequence sHalf bindingsOk [0] [1] [2] [3] [4] rfl rfl rfl
      rfl rfl rfl rfl rfl rfl rfl).1⟩

/-- Claim C5: equality and hashing are structural over the value tuple
`(selection registers, alt, keep, mu)`; two samplers built from identical
inputs are equal and hash equal; changing a probability beyond its rounding
slack (here `[1/2, 1/2]` against `[1/4, 3/4]`) yields inequality. -/
theorem claim_C5_structural_equality :
    (∀ s t : StatePreparationAliasSampling,
      s.valueEqualityValues = t.valueEqualityValues →
        s = t ∧ samplerHash s = samplerHash t) ∧
    (∀ (p : List ℚ) (e : ℚ) (s t : StatePreparationAliasSampling),
      from_lcu_probs p e = Except.ok s → from_lcu_probs p e = Except.ok t →
        s = t ∧ samplerHash s = samplerHash t) ∧
    from_lcu_probs probsHalf 1 ≠ from_lcu_probs probsQuarter 1 := by
  refine ⟨?_, ?_, ?_⟩
  · intro s t h
    have hst : s = t := by
      cases s; cases t
      simp only [StatePreparationAliasSampling.valueEqualityValues,
        Prod.mk.injEq] at h
      obtain ⟨h1, h2, h3, h4⟩ := h
      subst h1; subst h2; subst h3; subst h4
      rfl
    exact ⟨hst, congrArg samplerHash hst⟩
  · intro p e s t hs ht
    rw [hs] at ht
    have hst : s = t := by
      injection ht
    exact ⟨hst, congrArg samplerHash hst⟩
  · decide

/-- Witness for C5: two invocations of the factory on `[1/2, 1/2]` give the
very same sampler with the same hash. -/
theorem claim_C5_witness :
    sHalf = sHalf ∧ samplerHash sHalf = samplerHash sHalf :=
  claim_C5_structural_equality.2.1 probsHalf 1 sHalf sHalf (by rfl) (by rfl)

/-- Claim C6: construction is deterministic — two invocations of the factory
on equal inputs return equal `(alt, keep, mu)` triples and equal samplers;
the embedding of the source introduces no randomness. -/
theorem claim_C6_determinism (p1 p2 : List ℚ) (e1 e2 : ℚ)
    (hp : p1 = p2) (he : e1 = e2) :
    preprocess_lcu_coefficients_for_reversible_sampling p1 e1 =
      preprocess_lcu_coefficients_for_reversible_sampling p2 e2 ∧
    from_lcu_probs p1 e1 = from_lcu_probs p2 e2 := by
  subst hp; subst he
  exact ⟨rfl, rfl⟩

/-- Witness for C6 at `[1/2, 1/2]`, `epsilon = 1`. -/
theorem claim_C6_witness :
    preprocess_lcu_coefficients_for_reversible_sampling probsHalf 1 =
      preprocess_lcu_coefficients_for_reversible_sampling probsHalf 1 ∧
    from_lcu_probs probsHalf 1 = from_lcu_probs probsHalf 1 :=
  claim_C6_determinism probsHalf probsHalf 1 1 rfl rfl

/-- Claim C7: every factory-built sampler has junk registers of widths
`sigma_mu = mu`, `alt = ceil(log2 L)`, `keep = mu` and `flag = 1`, and the
total work-register width (selection plus junk) is
`2 * ceil(log2 L) + 2 * mu + 1`. -/
theorem claim_C7_junk_widths (probs : List ℚ) (eps : ℚ)
    (s : StatePreparationAliasSampling) (hL : 1 ≤ probs.length)
    (h : from_lcu_probs probs eps = Except.ok s) :
    s.junk_registers =
      [⟨"sigma_mu", s.mu⟩, ⟨"alt", Nat.clog 2 probs.length⟩,
       ⟨"keep", s.mu⟩, ⟨"less_than_equal", 1⟩] ∧
    total_bits (s.selection_registers.map (fun r => r.toRegister)) +
        total_bits s.junk_registers =
      2 * Nat.clog 2 probs.length + 2 * s.mu + 1 := by
  have halt : s.alternates_bitsize = Nat.clog 2 probs.length := by
    rw [from_lcu_probs_alternates_bitsize probs eps s h]
    exact bitLength_pred_eq_clog probs.length hL
  have hsel : s.selection_bitsize = Nat.clog 2 probs.length := by
    rw [from_lcu_probs_selection_bitsize probs eps s h]
    exact bitLength_pred_eq_clog probs.length hL
  constructor
  · simp only [StatePreparationAliasSampling.junk_registers, halt]
    rfl
  · have hsel2 : total_bits (s.selection_registers.map
        (fun r => r.toRegister)) = Nat.clog 2 probs.length := hsel
    have hjunk : total_bits s.junk_registers =
        s.mu + (s.alternates_bitsize + (s.mu + 1)) := by
      simp [total_bits, StatePreparationAliasSampling.junk_registers,
        StatePreparationAliasSampling.sigma_mu_bitsize,
        StatePreparationAliasSampling.keep_bitsize]
    rw [hsel2, hjunk, halt]
    ring

/-- Witness for C7 at the factory output for `[1/5, ..., 1/5]`. -/
theorem claim_C7_witness :
    s5.junk_registers =
      [⟨"sigma_mu", 1⟩, ⟨"alt", 3⟩, ⟨"keep", 1⟩, ⟨"less_than_equal", 1⟩] ∧
    total_bits (s5.selection_registers.map (fun r => r.toRegister)) +
        total_bits s5.junk_registers = 2 * 3 + 2 * 1 + 1 := by
  have hclog : Nat.clog 2 (List.length probs5) = 3 :=
    (bitLength_pred_eq_clog 5 (by decide)).symm.trans (by decide)
  have h := claim_C7_junk_widths probs5 1 s5 (by decide) (by rfl)
  rw [hclog] at h
  exact h

/-- Counterexample to claim C8: binding 5 qubits to the 1-bit selection
register of `sHalf` is a width mismatch, yet the decomposition does not fail
with `SizeMismatch` — it succeeds and yields its operations. -/
theorem claim_C8_counterexample :
    decompose_from_registers sHalf bindingsBad ≠
      Except.error Err.sizeMismatch ∧
    (decompose_from_registers sHalf bindingsBad).isOk = true := by
  exact ⟨by decide, by decide⟩

/-- Claim C8 as amended: the decomposition performs no width validation at
all.  Whenever the required keys `selection`, `alt` and `less_than_equal`
are bound — whatever the sizes, with `sigma_mu` and `keep` optional — it
succeeds, and no input whatsoever makes it return a `SizeMismatch` error;
only a missing required key fails, with a key-lookup error. -/
theorem claim_C8_no_size_validation :
    (∀ (s : StatePreparationAliasSampling) (q : Bindings)
      (sel al fl : List Nat),
      lookupBinding q "selection" = some sel →
      lookupBinding q "alt" = some al →
      lookupBinding q "less_than_equal" = some fl →
      (decompose_from_registers s q).isOk = true) ∧
    (∀ (s : StatePreparationAliasSampling) (q : Bindings),
      decompose_from_registers s q ≠ Except.error Err.sizeMismatch) ∧
    (∀ (s : StatePreparationAliasSampling) (q : Bindings),
      lookupBinding q "selection" = none →
      decompose_from_registers s q = Except.error Err.keyError) := by
  refine ⟨?_, ?_, ?_⟩
  · intro s q sel al fl hsel hal hfl
    unfold decompose_from_registers
    rw [hsel, hfl, hal]
    rfl
  · intro s q
    unfold decompose_from_registers
    cases h1 : lookupBinding q "selection" <;>
      cases h2 : lookupBinding q "less_than_equal" <;>
        cases h3 : lookupBinding q "alt" <;> simp
  · intro s q hsel
    unfold decompose_from_registers
    rw [hsel]

/-- Witness for the amended C8: the mismatched `bindingsBad` still succeed. -/
theorem claim_C8_witness :
    (decompose_from_registers sHalf bindingsBad).isOk = true :=
  claim_C8_no_size_validation.1 sHalf bindingsBad [0, 1, 2, 3, 4] [6] [8]
    (by rfl) (by rfl) (by rfl)

/-- Claim C9: for every sampler, however constructed,
`alternates_bitsize = selection_bitsize` (both the total bits of the
selection registers), `sigma_mu_bitsize = keep_bitsize = mu`, and the junk
`alt` register has exactly the width the step-5 exchange with the selection
register requires. -/
theorem claim_C9_accessor_invariants (s : StatePreparationAliasSampling) :
    s.alternates_bitsize = s.selection_bitsize ∧
    s.selection_bitsize =
      total_bits (s.selection_registers.map (fun r => r.toRegister)) ∧
    s.sigma_mu_bitsize = s.mu ∧ s.keep_bitsize = s.mu ∧
    s.junk_registers.map (fun r => r.bitsize) =
      [s.mu, s.selection_bitsize, s.mu, 1] :=
  ⟨rfl, rfl, rfl, rfl, rfl⟩

/-- Claim C10: the raw constructor validates nothing — `badSampler` is a
fully usable sampler (its decomposition succeeds) whose `alt` length differs
from the iteration length, whose `alt` holds an out-of-range index and whose
`keep` holds an entry at least `2^mu`, violating every AliasTable
invariant. -/
theorem claim_C10_no_constructor_validation :
    ¬ aliasTableInvariants badSampler ∧
    (decompose_from_registers badSampler bindingsOk).isOk = true ∧
    badSampler.alt.length ≠ badSampler.iterationLength ∧
    (∃ a ∈ badSampler.alt, ¬ a < badSampler.iterationLength) ∧
    (∃ k ∈ badSampler.keep, ¬ k < 2 ^ badSampler.mu) := by
  refine ⟨by decide, by decide, by decide, ?_, ?_⟩
  · exact ⟨5, by decide, by decide⟩
  · exact ⟨99, by decide, by decide⟩

end ClaimProofs

end Qualtran
